import Mathlib

/-!
Verification of the CCS08-style zero-knowledge range proof in
`go-ethereum/zkrangeproof/ccs08.go` (package `zkrangeproof`).

Embedding conventions:
* The bn256 pairing library is an external collaborator (spec section 6): the
  three groups are cyclic of known prime order with fixed generators, so each
  group is modelled by its exponent lattice `ZMod Order` (an element `g^k` is
  represented by `k`).  The bilinear pairing becomes multiplication of
  exponents, and canonical serialization equality (`bytes.Equal` of `Marshal`)
  becomes equality in `ZMod Order`.
* `big.Int` values are modelled by `ℤ`; Go's `big.Int.Mod` / `Div` are
  Euclidean, i.e. `Int.emod` / `Int.ediv`.
* Randomness (`rand.Int(rand.Reader, bn256.Order)`) is passed in explicitly:
  `Prove` receives the blinding scalar `m` and the per-digit streams
  `v s t : ℕ → ℤ`, `Setup`/`keygen` receive the private scalar `sk`.
* Fallible paths (Go runtime panics: negative `make`, division by zero,
  dereference of a `nil` map entry, index out of range) are modelled with
  `Except Err`.
-/

namespace ZKRP

/-- `bn256.Order`, the prime order of the three bn256 groups. -/
def Order : ℕ := 65000549695646603732796438742359905742825358107623003571877145026864184071783

/-- `bn256.Order` as a `big.Int` (an integer). -/
def OrderZ : ℤ := (Order : ℕ)

/-- Exponent field of the bn256 groups. -/
abbrev Zp := ZMod Order

/-- The group `bn256.G1`, modelled by the discrete logarithm of its generator. -/
abbrev G1 := ZMod Order

/-- The group `bn256.G2`, modelled by the discrete logarithm of its generator. -/
abbrev G2 := ZMod Order

/-- The group `bn256.GT`, modelled by the discrete logarithm of `e(g1,g2)`. -/
abbrev GT := ZMod Order

/-- `new(bn256.G1).ScalarBaseMult(k)`. -/
def G1.scalarBaseMult (k : ℤ) : G1 := (k : Zp)

/-- `new(bn256.G2).ScalarBaseMult(k)`. -/
def G2.scalarBaseMult (k : ℤ) : G2 := (k : Zp)

/-- `new(bn256.G2).ScalarMult(P, k)`. -/
def G2.scalarMult (P : G2) (k : ℤ) : G2 := (k : Zp) * P

/-- `G2.Add`. -/
def G2.add (P Q : G2) : G2 := P + Q

/-- `G2.SetInfinity()`, the identity of `G2`. -/
def G2.infinity : G2 := 0

/-- `bytes.Equal(P.Marshal(), Q.Marshal())`: the canonical (affine) marshalling
of a `bn256.G2` point is injective, so serialization equality is equality. -/
def G2.marshalEq (P Q : G2) : Bool := decide (P = Q)

/-- `bn256.Pair(P, Q)`: bilinearity, `e(g1^a, g2^b) = e(g1,g2)^(a*b)`. -/
def pair (P : G1) (Q : G2) : GT := P * Q

/-- `new(bn256.GT).ScalarMult(z, k)`. -/
def GT.scalarMult (z : GT) (k : ℤ) : GT := (k : Zp) * z

/-- `GT.Add`. -/
def GT.add (z w : GT) : GT := z + w

/-- `GT.Invert`. -/
def GT.invert (z : GT) : GT := -z

/-- `bytes.Equal(z.Marshal(), w.Marshal())` on `bn256.GT`. -/
def GT.marshalEq (z w : GT) : Bool := decide (z = w)

/-- Constant `G1 = new(bn256.G1).ScalarBaseMult(1)` from ccs08.go. -/
def g1 : G1 := G1.scalarBaseMult 1

/-- Constant `G2 = new(bn256.G2).ScalarBaseMult(1)` from ccs08.go. -/
def g2 : G2 := G2.scalarBaseMult 1

/-- Constant `E = bn256.Pair(G1, G2)` from ccs08.go. -/
def E : GT := pair g1 g2

/-- Modelled from the spec: the repository's big-integer helper `Mod`
(`big.Int.Mod`, Euclidean remainder); the helper file is not under src/. -/
def Mod (a b : ℤ) : ℤ := a % b

/-- Modelled from the spec: the repository's big-integer helper `Sub`. -/
def Sub (a b : ℤ) : ℤ := a - b

/-- Modelled from the spec: the repository's big-integer helper `Multiply`. -/
def Multiply (a b : ℤ) : ℤ := a * b

/-- Fuelled extended Euclid: returns `(gcd, s)` with `s*a + t*b = gcd`. -/
def egcdAux : ℕ → ℤ → ℤ → ℤ → ℤ → ℤ × ℤ
  | 0, r0, _, s0, _ => (r0, s0)
  | fuel + 1, r0, r1, s0, s1 =>
    if r1 = 0 then (r0, s0)
    else egcdAux fuel r1 (r0 % r1) s1 (s0 - r0 / r1 * s1)

/-- Modelled from the spec: `big.Int.ModInverse` used by the digit-signing
primitive (collaborator, not under src/). -/
def ModInverse (g n : ℤ) : ℤ := Mod (egcdAux 600 g n 1 0).2 n

/-- Key pair of the parameter authority (`keypair` of bonehboyen.go). -/
structure keypair where
  privk : ℤ
  pubk : G1

/-- Modelled from the spec: `keygen()` samples a private scalar and exposes
`pubk = g1^privk`; the random scalar `sk` is passed in explicitly. -/
def keygen (sk : ℤ) : keypair := ⟨sk, G1.scalarBaseMult sk⟩

/-- Modelled from the spec: the digit-signing primitive (bonehboyen.go, not
under src/): the Boneh-Boyen short signature `A_m = g2^(1/(m + privk))`, the
construction for which the spec's two verification equations are complete. -/
def sign (m privk : ℤ) : G2 := G2.scalarBaseMult (ModInverse (m + privk) OrderZ)

/-- `params` of ccs08.go: the trusted-setup output. -/
structure params where
  signatures : ℤ → Option G2
  H : G2
  kp : keypair
  u : ℤ
  l : ℤ

/-- `proof` of ccs08.go, field for field (including the nonce fields
`s`, `t`, `m` that the Go struct declares and `Prove` fills in). -/
structure proof where
  V : List G2
  D : G2
  C : G2
  a : List GT
  s : List ℤ
  t : List ℤ
  zsig : List ℤ
  zv : List ℤ
  c : ℤ
  m : ℤ
  zr : ℤ

/-- Go runtime faults reachable from this package. -/
inductive Err where
  | makeslice
  | divisionByZero
  | nilDereference
  | indexOutOfRange
deriving DecidableEq

/-! ### SHA-256 (the `crypto/sha256` collaborator, implemented concretely) -/

/-- Truncation to a 32-bit word. -/
def w32 (n : ℕ) : ℕ := n % 4294967296

/-- Logical right shift of a 32-bit word. -/
def shr (k x : ℕ) : ℕ := x / 2 ^ k

/-- Right rotation of a 32-bit word. -/
def rotr (k x : ℕ) : ℕ := w32 (x / 2 ^ k + x % 2 ^ k * 2 ^ (32 - k))

/-- SHA-256 Σ0. -/
def bsig0 (x : ℕ) : ℕ := (rotr 2 x) ^^^ (rotr 13 x) ^^^ (rotr 22 x)

/-- SHA-256 Σ1. -/
def bsig1 (x : ℕ) : ℕ := (rotr 6 x) ^^^ (rotr 11 x) ^^^ (rotr 25 x)

/-- SHA-256 σ0. -/
def ssig0 (x : ℕ) : ℕ := (rotr 7 x) ^^^ (rotr 18 x) ^^^ (shr 3 x)

/-- SHA-256 σ1. -/
def ssig1 (x : ℕ) : ℕ := (rotr 17 x) ^^^ (rotr 19 x) ^^^ (shr 10 x)

/-- SHA-256 Ch. -/
def chF (x y z : ℕ) : ℕ := (x &&& y) ^^^ ((4294967295 - w32 x) &&& z)

/-- SHA-256 Maj. -/
def majF (x y z : ℕ) : ℕ := (x &&& y) ^^^ (x &&& z) ^^^ (y &&& z)

/-- SHA-256 round constants. -/
def shaK : List ℕ :=
  [1116352408, 1899447441, 3049323471, 3921009573, 961987163, 1508970993,
   2453635748, 2870763221, 3624381080, 310598401, 607225278, 1426881987,
   1925078388, 2162078206, 2614888103, 3248222580, 3835390401, 4022224774,
   264347078, 604807628, 770255983, 1249150122, 1555081692, 1996064986,
   2554220882, 2821834349, 2952996808, 3210313671, 3336571891, 3584528711,
   113926993, 338241895, 666307205, 773529912, 1294757372, 1396182291,
   1695183700, 1986661051, 2177026350, 2456956037, 2730485921, 2820302411,
   3259730800, 3345764771, 3516065817, 3600352804, 4094571909, 275423344,
   430227734, 506948616, 659060556, 883997877, 958139571, 1322822218,
   1537002063, 1747873779, 1955562222, 2024104815, 2227730452, 2361852424,
   2428436474, 2756734187, 3204031479, 3329325298]

/-- SHA-256 working state: eight 32-bit words. -/
abbrev Hst := ℕ × ℕ × ℕ × ℕ × ℕ × ℕ × ℕ × ℕ

/-- SHA-256 initial state. -/
def shaInit : Hst :=
  (1779033703, 3144134277, 1013904242, 2773480762,
   1359893119, 2600822924, 528734635, 1541459225)

/-- Big-endian bytes of `n`, exactly `fuel` of them. -/
def natBytesBE : ℕ → ℕ → List ℕ
  | 0, _ => []
  | fuel + 1, n => natBytesBE fuel (n / 256) ++ [n % 256]

/-- Group bytes into big-endian 32-bit words. -/
def bytesToWords : List ℕ → List ℕ
  | b0 :: b1 :: b2 :: b3 :: rest =>
    (((b0 * 256 + b1) * 256 + b2) * 256 + b3) :: bytesToWords rest
  | _ => []

/-- Message-schedule extension (48 steps). -/
def sched : ℕ → List ℕ → List ℕ
  | 0, w => w
  | fuel + 1, w =>
    sched fuel (w ++ [w32 (ssig1 (w.getD (w.length - 2) 0) + w.getD (w.length - 7) 0 +
      ssig0 (w.getD (w.length - 15) 0) + w.getD (w.length - 16) 0)])

/-- The 64 compression rounds, driven by the zipped `(k, w)` pairs. -/
def roundsAux : List (ℕ × ℕ) → Hst → Hst
  | [], st => st
  | (k, wv) :: rest, (a, b, c, d, e, f, g, h) =>
    roundsAux rest
      (w32 (w32 (h + bsig1 e + chF e f g + k + wv) + w32 (bsig0 a + majF a b c)),
       a, b, c,
       w32 (d + w32 (h + bsig1 e + chF e f g + k + wv)),
       e, f, g)

/-- Compress one 64-byte block into the state. -/
def compressBlock (st : Hst) (block : List ℕ) : Hst :=
  match st, roundsAux (shaK.zip (sched 48 (bytesToWords block))) st with
  | (h0, h1, h2, h3, h4, h5, h6, h7), (a, b, c, d, e, f, g, h) =>
    (w32 (h0 + a), w32 (h1 + b), w32 (h2 + c), w32 (h3 + d),
     w32 (h4 + e), w32 (h5 + f), w32 (h6 + g), w32 (h7 + h))

/-- Split into 64-byte blocks (`fuel` bounds the number of steps). -/
def chunks : ℕ → List ℕ → List (List ℕ)
  | 0, _ => []
  | _ + 1, [] => []
  | fuel + 1, bs => bs.take 64 :: chunks fuel (bs.drop 64)

/-- SHA-256 padding: `0x80`, zeros to 56 mod 64, 8-byte bit length. -/
def shaPad (msg : List ℕ) : List ℕ :=
  msg ++ 128 :: (List.replicate ((56 + 64 - (msg.length + 1) % 64) % 64) 0 ++
    natBytesBE 8 (msg.length * 8))

/-- Serialize the final state as 32 digest bytes. -/
def digestBytes (st : Hst) : List ℕ :=
  match st with
  | (h0, h1, h2, h3, h4, h5, h6, h7) =>
    natBytesBE 4 h0 ++ natBytesBE 4 h1 ++ natBytesBE 4 h2 ++ natBytesBE 4 h3 ++
    natBytesBE 4 h4 ++ natBytesBE 4 h5 ++ natBytesBE 4 h6 ++ natBytesBE 4 h7

/-- `crypto/sha256` digest of a byte sequence. -/
def sha256 (msg : List ℕ) : List ℕ :=
  digestBytes ((chunks (shaPad msg).length (shaPad msg)).foldl compressBlock shaInit)

/-- Big-endian bytes to an unsigned natural number. -/
def fromBytesN (bs : List ℕ) : ℕ := bs.foldl (fun acc b => acc * 256 + b) 0

/-- Modelled from the spec: `byteconversion.FromByteArray` (not under src/),
which interprets a byte array as an unsigned big-endian integer. -/
def FromByteArray (bs : List ℕ) : ℤ := (fromBytesN bs : ℕ)

/-- Modelled from the spec: the fixed canonical byte encoding of a group
element used when feeding `Hash` (the collaborator `String()` serialization of
bn256 elements); in the cyclic-group model this is the canonical 32-byte
big-endian encoding of the element's discrete logarithm. -/
def serElem (P : ZMod Order) : List ℕ := natBytesBE 32 P.val

/-! ### The six functions of ccs08.go -/

/-- `Hash(a []*bn256.GT, D *bn256.G2)`: write each `a[i]`, then `D`, into a
sha256 digest, and interpret the digest via `FromByteArray`.  Note the source
performs no reduction modulo `bn256.Order` here. -/
def Hash (a : List GT) (D : G2) : ℤ :=
  FromByteArray (sha256 ((a.map serElem).flatten ++ serElem D))

/-- `Commit(x, r, p)`: the Pedersen commitment `g^x · H^r` (its Go error
result is the constant `nil` and is omitted). -/
def Commit (x r : ℤ) (p : params) : G2 :=
  G2.add (G2.scalarBaseMult x) (G2.scalarMult p.H r)

/-- The digit list built by `Decompose`'s loop: `result[i] = x mod u`,
`x = x div u`, repeated `n` times (least-significant digit first). -/
def digitsOf (x u : ℤ) : ℕ → List ℤ
  | 0 => []
  | n + 1 => x % u :: digitsOf (x / u) u n

/-- `Decompose(x, u, l)`.  `make([]int64, l, l)` panics for `l < 0`, and
`Mod(x, 0)` panics with a division by zero when the loop runs with `u = 0`;
on every other input the Go function returns the digit list and a `nil`
error. -/
def Decompose (x : ℤ) (u l : ℤ) : Except Err (List ℤ) :=
  if l < 0 then .error .makeslice
  else if u = 0 ∧ 0 < l then .error .divisionByZero
  else .ok (digitsOf x u l.toNat)

/-- The fixed alternate-generator scalar `GetBigInt("18560…")` in `Setup`. -/
def hConst : ℤ := 18560948149108576432482904553159745978835170526553990798435819795989606410925

/-- `Setup(u, l)`: key generation, one Boneh-Boyen signature per digit value
in `[0, u)` (keyed by the decimal string of the digit, i.e. by the digit), the
fixed generator `H`, and the bounds; the second component is Setup's `error`
result, which is the constant `nil`. -/
def Setup (sk u l : ℤ) : params × Option Err :=
  ({ signatures := fun d => if 0 ≤ d ∧ d < u then some (sign d sk) else none,
     H := G2.scalarBaseMult hConst,
     kp := keygen sk,
     u := u, l := l }, none)

/-- Error-propagating map (the per-element body of a Go loop over a slice). -/
def mapE (f : α → Except Err β) : List α → Except Err (List β)
  | [] => .ok []
  | x :: xs =>
    match f x with
    | .error e => .error e
    | .ok y =>
      match mapE f xs with
      | .error e => .error e
      | .ok ys => .ok (y :: ys)

/-- Slice indexing `xs[i]`; out of range is a Go runtime panic. -/
def getIdx (xs : List α) (i : ℕ) : Except Err α :=
  match xs.get? i with
  | some v => .ok v
  | none => .error .indexOutOfRange

/-- The signature fetch `A = p.signatures[strconv.FormatInt(decx[i], 10)]` of
`Prove`'s loop: a missing map entry yields `nil`, which the subsequent
`ScalarMult(A, v[i])` dereferences — a Go runtime panic. -/
def lookupAll (f : ℤ → Option G2) : List ℤ → Except Err (List G2) :=
  mapE fun d =>
    match f d with
    | some A => .ok A
    | none => .error .nilDereference

/-- The blinded signatures `V[i] = ScalarMult(A_i, v[i])` of `Prove`'s loop,
rendered index-wise over `List.range`. -/
def proveV (v : ℕ → ℤ) (As : List G2) (n : ℕ) : List G2 :=
  (List.range n).map fun i => G2.scalarMult (As.getD i 0) (v i)

/-- The first-round pairing values
`a[i] = e(g1, V_i)^(-s_i) · e(g1, g2)^(t_i)` of `Prove`'s loop. -/
def proveA (s t : ℕ → ℤ) (V : List G2) (n : ℕ) : List GT :=
  (List.range n).map fun i =>
    GT.add (GT.invert (GT.scalarMult (pair g1 (V.getD i 0)) (s i)))
      (GT.scalarMult E (t i))

/-- The aggregate `proof_out.D = infinity + (H^m · Π g2^(s_i·u^i mod Order))`
accumulated by `Prove`'s loop. -/
def proveD (p : params) (m : ℤ) (s : ℕ → ℤ) (n : ℕ) : G2 :=
  G2.add G2.infinity
    (((List.range n).map fun i =>
      G2.scalarBaseMult (Mod (Multiply (s i) (p.u ^ i)) OrderZ)).foldl
      G2.add (G2.scalarMult p.H m))

/-- The proof structure `Prove` assembles once every fallible step has
succeeded: `decx` is the digit list, `As` the fetched digit signatures;
first-round values, then the Fiat-Shamir challenge, then the responses. -/
def proveBody (x r : ℤ) (p : params) (m : ℤ) (v s t : ℕ → ℤ)
    (decx : List ℤ) (As : List G2) : proof :=
  let n := p.l.toNat
  let c := Mod (Hash (proveA s t (proveV v As n) n) (proveD p m s n)) OrderZ
  { V := proveV v As n
    D := proveD p m s n
    C := Commit x r p
    a := proveA s t (proveV v As n) n
    s := (List.range n).map s
    t := (List.range n).map t
    zsig := (List.range n).map fun i =>
      Mod (Sub (s i) (Multiply (decx.getD i 0) c)) OrderZ
    zv := (List.range n).map fun i =>
      Mod (Sub (t i) (Multiply (v i) c)) OrderZ
    c := c
    m := m
    zr := Mod (Sub m (Multiply r c)) OrderZ }

/-- `Prove(x, r, p)` with the sampled randomness (`proof_out.m`, `v[i]`,
`proof_out.s[i]`, `proof_out.t[i]`) passed in as `m` and the streams `v s t`:
decomposition, the per-digit signature fetches (the only fallible steps),
then the transcript `proveBody`. -/
def Prove (x r : ℤ) (p : params) (m : ℤ) (v s t : ℕ → ℤ) : Except Err proof :=
  match Decompose x p.u p.l with
  | .error e => .error e
  | .ok decx =>
    match lookupAll p.signatures decx with
    | .error e => .error e
    | .ok As => .ok (proveBody x r p m v s t decx As)

/-- One addend `g2^(zsig[i]·u^i mod Order)` of `Verify`'s consistency loop. -/
def consistencyTerm (pf : proof) (p : params) (i : ℕ) : Except Err G2 :=
  match getIdx pf.zsig i with
  | .error e => .error e
  | .ok zs => .ok (G2.scalarBaseMult (Mod (Multiply zs (p.u ^ i)) OrderZ))

/-- One iteration of `Verify`'s per-digit loop:
`e(pubk, V_i)^c · e(g1, V_i)^(-zsig_i) · e(g1, g2)^(zv_i)` compared (by
marshalled bytes) with `proof.a[i]`. -/
def digitCheck (pf : proof) (pubk : G1) (i : ℕ) : Except Err Bool :=
  match getIdx pf.V i, getIdx pf.zsig i, getIdx pf.a i, getIdx pf.zv i with
  | .ok Vi, .ok zsi, .ok ai, .ok zvi =>
    .ok (GT.marshalEq
      (GT.add (GT.add (GT.scalarMult (pair pubk Vi) pf.c)
        (GT.invert (GT.scalarMult (pair g1 Vi) zsi)))
        (GT.scalarMult E zvi)) ai)
  | .error e, _, _, _ => .error e
  | _, .error e, _, _ => .error e
  | _, _, .error e, _ => .error e
  | _, _, _, .error e => .error e

/-- `Verify(proof, p, pubk)`: recompute `D' = C^c · H^zr · Π g2^(zsig_i·u^i)`
and compare with `proof.D` (giving `r1`), run the per-digit pairing checks
(folding into `r2` exactly as the Go `r2 = r2 && …` loop does), and return
`r1 && r2`. -/
def Verify (pf : proof) (p : params) (pubk : G1) : Except Err Bool :=
  match mapE (consistencyTerm pf p) (List.range p.l.toNat) with
  | .error e => .error e
  | .ok terms =>
    let D := terms.foldl G2.add
      (G2.add (G2.scalarMult pf.C pf.c) (G2.scalarMult p.H pf.zr))
    match mapE (digitCheck pf pubk) (List.range p.l.toNat) with
    | .error e => .error e
    | .ok checks =>
      .ok (G2.marshalEq D pf.D && checks.foldl (fun acc b => acc && b) true)

/-! ### Derived descriptions of Verify's two checks (for the iff claim) -/

/-- The verifier's recomputed aggregate
`D' = C^c · H^zr · Π g2^(zsig_i·u^i mod Order)`. -/
def recomputedD (pf : proof) (p : params) : G2 :=
  ((List.range p.l.toNat).map fun i =>
    G2.scalarBaseMult (Mod (Multiply (pf.zsig.getD i 0) (p.u ^ i)) OrderZ)).foldl
    G2.add (G2.add (G2.scalarMult pf.C pf.c) (G2.scalarMult p.H pf.zr))

/-- The verifier's recomputed per-digit value
`a_i' = e(pubk, V_i)^c · e(g1, V_i)^(-zsig_i) · e(g1, g2)^(zv_i)`. -/
def recomputedA (pf : proof) (pubk : G1) (i : ℕ) : GT :=
  GT.add (GT.add (GT.scalarMult (pair pubk (pf.V.getD i 0)) pf.c)
    (GT.invert (GT.scalarMult (pair g1 (pf.V.getD i 0)) (pf.zsig.getD i 0))))
    (GT.scalarMult E (pf.zv.getD i 0))

/-- The consistency check: the recomputed `D'` serializes identically to
`proof.D`. -/
def consistencyHolds (pf : proof) (p : params) : Prop := recomputedD pf p = pf.D

/-- The `i`-th per-digit pairing check passes. -/
def digitHolds (pf : proof) (pubk : G1) (i : ℕ) : Prop :=
  recomputedA pf pubk i = pf.a.getD i 0

instance (pf : proof) (p : params) : Decidable (consistencyHolds pf p) :=
  inferInstanceAs (Decidable (recomputedD pf p = pf.D))

instance (pf : proof) (pubk : G1) (i : ℕ) : Decidable (digitHolds pf pubk i) :=
  inferInstanceAs (Decidable (recomputedA pf pubk i = pf.a.getD i 0))

/-- The positional value `Σ dsᵢ · u^i` of a digit list, least-significant
digit first. -/
def posSum (u : ℤ) : List ℤ → ℤ
  | [] => 0
  | d :: ds => d + u * posSum u ds

/-! ### Helper lemmas -/

theorem castMod (z : ℤ) : ((Mod z OrderZ : ℤ) : Zp) = (z : Zp) :=
  ZMod.intCast_mod z Order

/-- Finite sum `Σ_{i<n} F i` in the exponent field. -/
def SumZ (F : ℕ → Zp) (n : ℕ) : Zp := ((List.range n).map F).sum

theorem SumZ_zero (F : ℕ → Zp) : SumZ F 0 = 0 := rfl

theorem SumZ_succ (F : ℕ → Zp) (n : ℕ) : SumZ F (n + 1) = SumZ F n + F n := by
  simp [SumZ, List.range_succ]

theorem SumZ_succ_head (F : ℕ → Zp) (n : ℕ) :
    SumZ F (n + 1) = F 0 + SumZ (fun i => F (i + 1)) n := by
  simp [SumZ, List.range_succ_eq_map, List.map_map, Function.comp_def]

theorem SumZ_congr {F G : ℕ → Zp} {n : ℕ} (h : ∀ i < n, F i = G i) :
    SumZ F n = SumZ G n := by
  induction n with
  | zero => rfl
  | succ n ih =>
    rw [SumZ_succ, SumZ_succ, ih fun i hi => h i (Nat.lt_succ_of_lt hi),
      h n (Nat.lt_succ_self n)]

theorem SumZ_sub (F G : ℕ → Zp) (n : ℕ) :
    SumZ (fun i => F i - G i) n = SumZ F n - SumZ G n := by
  induction n with
  | zero => simp [SumZ_zero]
  | succ n ih => rw [SumZ_succ, SumZ_succ, SumZ_succ, ih]; ring

theorem SumZ_mul_left (c : Zp) (F : ℕ → Zp) (n : ℕ) :
    SumZ (fun i => c * F i) n = c * SumZ F n := by
  induction n with
  | zero => simp [SumZ_zero]
  | succ n ih => rw [SumZ_succ, SumZ_succ, ih]; ring

theorem foldl_g2add (xs : List Zp) (b : Zp) : xs.foldl G2.add b = b + xs.sum := by
  induction xs generalizing b with
  | nil => simp
  | cons x xs ih => simp only [List.foldl_cons, ih, G2.add, List.sum_cons]; ring

theorem foldl_and (bs : List Bool) (acc : Bool) :
    bs.foldl (fun a b => a && b) acc = (acc && bs.all id) := by
  induction bs generalizing acc with
  | nil => simp
  | cons b bs ih => simp [ih, Bool.and_assoc]

theorem getD_map_range {α : Type _} (f : ℕ → α) {i n : ℕ} (h : i < n) (d : α) :
    (((List.range n).map f).getD i d) = f i := by
  simp [List.getD_eq_getElem?_getD, List.getElem?_map, List.getElem?_range h]

theorem getIdx_ok {α : Type _} (xs : List α) {i : ℕ} (h : i < xs.length) (d : α) :
    getIdx xs i = .ok (xs.getD i d) := by
  simp [getIdx, List.get?_eq_getElem?, List.getElem?_eq_getElem h,
    List.getD_eq_getElem?_getD]

theorem mapE_ok {α β : Type _} {f : α → Except Err β} {g : α → β} :
    ∀ {xs : List α}, (∀ a ∈ xs, f a = .ok (g a)) → mapE f xs = .ok (xs.map g)
  | [], _ => rfl
  | x :: xs, h => by
    rw [mapE, h x (List.mem_cons_self x xs),
      mapE_ok fun a ha => h a (List.mem_cons_of_mem x ha)]
    rfl

/-! ### Digit lemmas -/

theorem digitsOf_length (x u : ℤ) (n : ℕ) : (digitsOf x u n).length = n := by
  induction n generalizing x with
  | zero => rfl
  | succ n ih => simp [digitsOf, ih]

theorem digitsOf_bounds {u : ℤ} (hu : 0 < u) (x : ℤ) (n : ℕ) :
    ∀ d ∈ digitsOf x u n, 0 ≤ d ∧ d < u := by
  induction n generalizing x with
  | zero => intro d hd; cases hd
  | succ n ih =>
    intro d hd
    rcases List.mem_cons.1 hd with h | h
    · subst h
      exact ⟨Int.emod_nonneg x (ne_of_gt hu), Int.emod_lt_of_pos x hu⟩
    · exact ih _ d h

/-- The key division step: `x mod u^(n+1) = (x mod u) + u * ((x div u) mod u^n)`. -/
theorem emod_pow_succ {u : ℤ} (hu : 0 < u) (x : ℤ) (n : ℕ) :
    x % u ^ (n + 1) = x % u + u * (x / u % u ^ n) := by
  have hun : (0 : ℤ) < u ^ n := pow_pos hu n
  have hx : x = (x % u + u * (x / u % u ^ n)) + u ^ (n + 1) * (x / u / u ^ n) := by
    have h1 : u * (x / u) + x % u = x := Int.ediv_add_emod x u
    have h2 : u ^ n * (x / u / u ^ n) + x / u % u ^ n = x / u :=
      Int.ediv_add_emod (x / u) (u ^ n)
    linear_combination -h1 - u * h2
  have hlo : 0 ≤ x % u + u * (x / u % u ^ n) := by
    have := Int.emod_nonneg x (ne_of_gt hu)
    have := Int.emod_nonneg (x / u) (ne_of_gt hun)
    positivity
  have hhi : x % u + u * (x / u % u ^ n) < u ^ (n + 1) := by
    have h1 : x % u < u := Int.emod_lt_of_pos x hu
    have h2 : x / u % u ^ n < u ^ n := Int.emod_lt_of_pos _ hun
    have h3 : x / u % u ^ n + 1 ≤ u ^ n := by omega
    have h4 : u * (x / u % u ^ n + 1) ≤ u * u ^ n :=
      mul_le_mul_of_nonneg_left h3 (le_of_lt hu)
    have h5 : u * (x / u % u ^ n + 1) = u * (x / u % u ^ n) + u := by ring
    have h6 : u ^ (n + 1) = u * u ^ n := by ring
    omega
  calc x % u ^ (n + 1)
      = ((x % u + u * (x / u % u ^ n)) + u ^ (n + 1) * (x / u / u ^ n)) % u ^ (n + 1) := by
        conv_lhs => rw [hx]
    _ = (x % u + u * (x / u % u ^ n)) % u ^ (n + 1) :=
        Int.add_mul_emod_self_left ..
    _ = x % u + u * (x / u % u ^ n) := Int.emod_eq_of_lt hlo hhi

theorem posSum_digitsOf {u : ℤ} (hu : 0 < u) (x : ℤ) (n : ℕ) :
    posSum u (digitsOf x u n) = x % u ^ n := by
  induction n generalizing x with
  | zero => simp [digitsOf, posSum]
  | succ n ih => rw [digitsOf, posSum, ih (x / u), emod_pow_succ hu x n]

theorem digitsOf_emod {u : ℤ} (hu : 0 < u) {x : ℤ} (hx : 0 ≤ x) (n : ℕ) :
    digitsOf x u n = digitsOf (x % u ^ n) u n := by
  induction n generalizing x with
  | zero => rfl
  | succ n ih =>
    have hun : (0 : ℤ) < u ^ n := pow_pos hu n
    have hmod : x % u ^ (n + 1) % u = x % u :=
      Int.emod_emod_of_dvd x (dvd_pow_self u (Nat.succ_ne_zero n))
    have hdiv : x % u ^ (n + 1) / u = x / u % u ^ n := by
      rw [emod_pow_succ hu x n, Int.add_mul_ediv_left _ _ (ne_of_gt hu),
        Int.ediv_eq_zero_of_lt (Int.emod_nonneg x (ne_of_gt hu))
          (Int.emod_lt_of_pos x hu), zero_add]
    rw [digitsOf, digitsOf, hmod, hdiv, ih (Int.ediv_nonneg hx (le_of_lt hu))]

/-! ### Symbolic evaluation of Prove and Verify -/

/-- The proof value `Prove` returns on parameters produced by `Setup` (for
`u > 0`, `l ≥ 0`, so that the decomposition and every signature fetch
succeed): `proveBody` applied to the digits of `x` and their fetched
signatures. -/
def mkProof (sk u l x r m : ℤ) (v s t : ℕ → ℤ) : proof :=
  proveBody x r (Setup sk u l).1 m v s t (digitsOf x u l.toNat)
    ((digitsOf x u l.toNat).map fun d => sign d sk)

theorem Prove_Setup_eq (sk u l x r m : ℤ) (v s t : ℕ → ℤ) (hu : 0 < u)
    (hl : 0 ≤ l) :
    Prove x r (Setup sk u l).1 m v s t = .ok (mkProof sk u l x r m v s t) := by
  have hdec : Decompose x u l = .ok (digitsOf x u l.toNat) := by
    rw [Decompose, if_neg (by omega), if_neg (by rintro ⟨h0, hl0⟩; omega)]
  have hlook : lookupAll (fun d => if 0 ≤ d ∧ d < u then some (sign d sk) else none)
      (digitsOf x u l.toNat) =
      .ok ((digitsOf x u l.toNat).map fun d => sign d sk) := by
    apply mapE_ok
    intro d hd
    rcases digitsOf_bounds hu x l.toNat d hd with ⟨h0, h1⟩
    dsimp only
    rw [if_pos ⟨h0, h1⟩]
  simp only [Prove, Setup, hdec, hlook]
  rfl

theorem getD_map_lt {α β : Type _} (g : α → β) (ds : List α) {i : ℕ}
    (h : i < ds.length) (d0 : β) (d1 : α) :
    (ds.map g).getD i d0 = g (ds.getD i d1) := by
  simp [List.getD_eq_getElem?_getD, List.getElem?_map,
    List.getElem?_eq_getElem h]

theorem all_map_id {α : Type _} (f : α → Bool) (l : List α) :
    (l.map f).all id = l.all f := by
  induction l with
  | nil => rfl
  | cons x xs ih => simp [List.all_cons, ih]

theorem Verify_eval (pf : proof) (p : params) (pubk : G1)
    (hV : p.l.toNat ≤ pf.V.length) (ha : p.l.toNat ≤ pf.a.length)
    (hzs : p.l.toNat ≤ pf.zsig.length) (hzv : p.l.toNat ≤ pf.zv.length) :
    Verify pf p pubk = .ok (G2.marshalEq (recomputedD pf p) pf.D &&
      (List.range p.l.toNat).all fun i =>
        GT.marshalEq (recomputedA pf pubk i) (pf.a.getD i 0)) := by
  have hterms : mapE (consistencyTerm pf p) (List.range p.l.toNat) =
      .ok ((List.range p.l.toNat).map fun i =>
        G2.scalarBaseMult (Mod (Multiply (pf.zsig.getD i 0) (p.u ^ i)) OrderZ)) := by
    apply mapE_ok
    intro i hi
    rw [consistencyTerm,
      getIdx_ok pf.zsig (lt_of_lt_of_le (List.mem_range.1 hi) hzs) 0]
  have hchecks : mapE (digitCheck pf pubk) (List.range p.l.toNat) =
      .ok ((List.range p.l.toNat).map fun i =>
        GT.marshalEq (recomputedA pf pubk i) (pf.a.getD i 0)) := by
    apply mapE_ok
    intro i hi
    have hi' := List.mem_range.1 hi
    rw [digitCheck, getIdx_ok pf.V (lt_of_lt_of_le hi' hV) 0,
      getIdx_ok pf.zsig (lt_of_lt_of_le hi' hzs) 0,
      getIdx_ok pf.a (lt_of_lt_of_le hi' ha) 0,
      getIdx_ok pf.zv (lt_of_lt_of_le hi' hzv) 0]
    rfl
  simp only [Verify, hterms, hchecks]
  rw [foldl_and, Bool.true_and, all_map_id]
  rfl

/-! ### The exponent algebra behind the two verifier checks -/

theorem sumZ_posSum (u : ℤ) (ds : List ℤ) :
    SumZ (fun i => ((ds.getD i 0 : ℤ) : Zp) * ((u : ℤ) : Zp) ^ i) ds.length
      = ((posSum u ds : ℤ) : Zp) := by
  induction ds with
  | nil => simp [SumZ_zero, posSum]
  | cons d tl ih =>
    rw [List.length_cons, SumZ_succ_head]
    have h1 : SumZ (fun i => (((d :: tl).getD (i + 1) 0 : ℤ) : Zp) *
          ((u : ℤ) : Zp) ^ (i + 1)) tl.length
        = ((u : ℤ) : Zp) *
          SumZ (fun i => ((tl.getD i 0 : ℤ) : Zp) * ((u : ℤ) : Zp) ^ i) tl.length := by
      rw [← SumZ_mul_left]
      apply SumZ_congr
      intro i _
      rw [List.getD_cons_succ]
      ring
    rw [h1, ih, List.getD_cons_zero, posSum]
    push_cast
    ring

theorem sumZ_posSum_len (u : ℤ) (ds : List ℤ) (n : ℕ) (hlen : ds.length = n) :
    SumZ (fun i => ((ds.getD i 0 : ℤ) : Zp) * ((u : ℤ) : Zp) ^ i) n
      = ((posSum u ds : ℤ) : Zp) := by
  subst hlen
  exact sumZ_posSum u ds

theorem g1_val : g1 = 1 := by
  simp [g1, G1.scalarBaseMult]

theorem E_val : E = 1 := by
  simp [E, pair, g1, g2, G1.scalarBaseMult, G2.scalarBaseMult]

/-- Closed form of the verifier's recomputed aggregate `D'` for any proof
whose `C`, `c`, `zr`, `zsig` fields have the shape `Prove` creates: the
committed value cancels, leaving `H^(zr + r·c) · Π g2^(sᵢ·u^i)`. -/
theorem recomputedD_formula (pf : proof) (p : params) (ds : List ℤ)
    (c x r zrv : ℤ) (s : ℕ → ℤ)
    (hC : pf.C = G2.add (G2.scalarBaseMult x) (G2.scalarMult p.H r))
    (hc : pf.c = c) (hzr : pf.zr = zrv)
    (hzsig : pf.zsig = (List.range p.l.toNat).map fun i =>
      Mod (Sub (s i) (Multiply (ds.getD i 0) c)) OrderZ)
    (hlen : ds.length = p.l.toNat)
    (hsum : ((posSum p.u ds : ℤ) : Zp) = ((x : ℤ) : Zp)) :
    recomputedD pf p = ((zrv + r * c : ℤ) : Zp) * p.H +
      SumZ (fun i => ((s i : ℤ) : Zp) * ((p.u : ℤ) : Zp) ^ i) p.l.toNat := by
  unfold recomputedD
  rw [hzsig, hc, hzr, hC, foldl_g2add]
  have hmapsum : ∀ F : ℕ → Zp, ((List.range p.l.toNat).map F).sum = SumZ F p.l.toNat :=
    fun F => rfl
  rw [hmapsum]
  have hpt : SumZ (fun i => G2.scalarBaseMult (Mod (Multiply
        ((((List.range p.l.toNat).map fun j =>
          Mod (Sub (s j) (Multiply (ds.getD j 0) c)) OrderZ).getD i 0))
        (p.u ^ i)) OrderZ)) p.l.toNat
      = SumZ (fun i => ((s i : ℤ) : Zp) * ((p.u : ℤ) : Zp) ^ i
          - (c : Zp) * (((ds.getD i 0 : ℤ) : Zp) * ((p.u : ℤ) : Zp) ^ i)) p.l.toNat := by
    apply SumZ_congr
    intro i hi
    rw [getD_map_range _ hi]
    unfold G2.scalarBaseMult
    rw [castMod]
    unfold Multiply Sub
    push_cast
    rw [castMod]
    push_cast
    ring
  rw [hpt, SumZ_sub, SumZ_mul_left, sumZ_posSum_len p.u ds p.l.toNat hlen, hsum]
  unfold G2.add G2.scalarMult G2.scalarBaseMult
  push_cast
  ring

/-! ### Field values of the proof built by Prove -/

theorem getD_map_range' {α : Type _} {f : ℕ → α} {i n : ℕ} (h : i < n) {d : α} :
    ((List.range n).map f).getD i d = f i := getD_map_range f h d

theorem getD_map_sign {sk : ℤ} {ds : List ℤ} {i : ℕ} (h : i < ds.length) :
    (ds.map fun d => sign d sk).getD i 0 = sign (ds.getD i 0) sk :=
  getD_map_lt _ _ h 0 0

theorem mk_C_def (sk u l x r m : ℤ) (v s t : ℕ → ℤ) :
    (mkProof sk u l x r m v s t).C = Commit x r (Setup sk u l).1 := rfl

theorem mk_zr_def (sk u l x r m : ℤ) (v s t : ℕ → ℤ) :
    (mkProof sk u l x r m v s t).zr =
      Mod (Sub m (Multiply r (mkProof sk u l x r m v s t).c)) OrderZ := rfl

theorem mk_zsig_def (sk u l x r m : ℤ) (v s t : ℕ → ℤ) :
    (mkProof sk u l x r m v s t).zsig = (List.range l.toNat).map fun i =>
      Mod (Sub (s i) (Multiply ((digitsOf x u l.toNat).getD i 0)
        (mkProof sk u l x r m v s t).c)) OrderZ := rfl

theorem mk_zv_def (sk u l x r m : ℤ) (v s t : ℕ → ℤ) :
    (mkProof sk u l x r m v s t).zv = (List.range l.toNat).map fun i =>
      Mod (Sub (t i) (Multiply (v i) (mkProof sk u l x r m v s t).c)) OrderZ := rfl

theorem mk_V_def (sk u l x r m : ℤ) (v s t : ℕ → ℤ) :
    (mkProof sk u l x r m v s t).V = (List.range l.toNat).map fun i =>
      G2.scalarMult (((digitsOf x u l.toNat).map fun d => sign d sk).getD i 0)
        (v i) := rfl

theorem mk_a_def (sk u l x r m : ℤ) (v s t : ℕ → ℤ) :
    (mkProof sk u l x r m v s t).a = (List.range l.toNat).map fun i =>
      GT.add (GT.invert (GT.scalarMult
        (pair g1 ((mkProof sk u l x r m v s t).V.getD i 0)) (s i)))
        (GT.scalarMult E (t i)) := rfl

theorem mk_D_def (sk u l x r m : ℤ) (v s t : ℕ → ℤ) :
    (mkProof sk u l x r m v s t).D = G2.add G2.infinity
      (((List.range l.toNat).map fun i =>
        G2.scalarBaseMult (Mod (Multiply (s i) (u ^ i)) OrderZ)).foldl
        G2.add (G2.scalarMult (G2.scalarBaseMult hConst) m)) := rfl

/-- Closed form of the prover's aggregate `D = H^m · Π g2^(sᵢ·u^i)`. -/
theorem mkD_formula (sk u l x r m : ℤ) (v s t : ℕ → ℤ) :
    (mkProof sk u l x r m v s t).D = ((m : ℤ) : Zp) * ((hConst : ℤ) : Zp) +
      SumZ (fun i => ((s i : ℤ) : Zp) * ((u : ℤ) : Zp) ^ i) l.toNat := by
  rw [mk_D_def, foldl_g2add]
  have hmapsum : ∀ F : ℕ → Zp, ((List.range l.toNat).map F).sum = SumZ F l.toNat :=
    fun F => rfl
  rw [hmapsum]
  have hpt : SumZ (fun i =>
      G2.scalarBaseMult (Mod (Multiply (s i) (u ^ i)) OrderZ)) l.toNat
      = SumZ (fun i => ((s i : ℤ) : Zp) * ((u : ℤ) : Zp) ^ i) l.toNat := by
    apply SumZ_congr
    intro i _
    unfold G2.scalarBaseMult
    rw [castMod]
    unfold Multiply
    push_cast
    ring
  rw [hpt]
  unfold G2.add G2.infinity G2.scalarMult G2.scalarBaseMult
  ring

/-- The consistency check passes on every proof `Prove` builds from an
in-range secret. -/
theorem mk_consistency (sk u l x r m : ℤ) (v s t : ℕ → ℤ) (hu : 0 < u)
    (hx0 : 0 ≤ x) (hx : x < u ^ l.toNat) :
    consistencyHolds (mkProof sk u l x r m v s t) (Setup sk u l).1 := by
  unfold consistencyHolds
  have hsum : ((posSum u (digitsOf x u l.toNat) : ℤ) : Zp) = ((x : ℤ) : Zp) := by
    rw [posSum_digitsOf hu, Int.emod_eq_of_lt hx0 hx]
  rw [recomputedD_formula (mkProof sk u l x r m v s t) (Setup sk u l).1
    (digitsOf x u l.toNat) (mkProof sk u l x r m v s t).c x r
    (mkProof sk u l x r m v s t).zr s rfl rfl rfl (mk_zsig_def sk u l x r m v s t)
    (digitsOf_length x u l.toNat) hsum]
  rw [mkD_formula, mk_zr_def]
  simp only [show (Setup sk u l).1.u = u from rfl, show (Setup sk u l).1.l = l from rfl,
    show (Setup sk u l).1.H = ((hConst : ℤ) : Zp) from rfl]
  push_cast
  rw [castMod]
  unfold Sub Multiply
  push_cast
  ring

/-- The exponent identity behind one per-digit check. -/
theorem digit_alg (A cz sz dz tz vz skz : Zp) (h : A * (dz + skz) = 1) :
    cz * (skz * (vz * A)) + -((sz - dz * cz) * (1 * (vz * A))) + (tz - vz * cz) * 1
      = -(sz * (1 * (vz * A))) + tz * 1 := by
  linear_combination (cz * vz) * h

/-- Every per-digit check passes on a proof `Prove` builds, provided the
fetched digit signature is a valid Boneh-Boyen signature (its exponent
inverts `digit + sk`). -/
theorem mk_digitHolds (sk u l x r m : ℤ) (v s t : ℕ → ℤ) {i : ℕ}
    (hi : i < l.toNat)
    (hsig : sign ((digitsOf x u l.toNat).getD i 0) sk *
      (((digitsOf x u l.toNat).getD i 0 + sk : ℤ) : Zp) = 1) :
    digitHolds (mkProof sk u l x r m v s t) (G1.scalarBaseMult sk) i := by
  have hdl : i < (digitsOf x u l.toNat).length := by
    rw [digitsOf_length]; exact hi
  unfold digitHolds recomputedA
  rw [mk_a_def]
  rw [mk_V_def, mk_zsig_def, mk_zv_def]
  simp only [getD_map_range' hi, getD_map_sign hdl]
  unfold GT.add GT.invert GT.scalarMult pair G2.scalarMult G1.scalarBaseMult
  rw [E_val, g1_val, castMod, castMod]
  unfold Sub Multiply
  push_cast
  have h := hsig
  push_cast at h
  exact digit_alg (sign ((digitsOf x u l.toNat).getD i 0) sk)
    (((mkProof sk u l x r m v s t).c : ℤ) : Zp) ((s i : ℤ) : Zp)
    (((digitsOf x u l.toNat).getD i 0 : ℤ) : Zp) ((t i : ℤ) : Zp)
    ((v i : ℤ) : Zp) ((sk : ℤ) : Zp) h

/-! ### Size facts about the SHA-256 digest -/

theorem natBytesBE_length (f n : ℕ) : (natBytesBE f n).length = f := by
  induction f generalizing n with
  | zero => rfl
  | succ f ih => simp [natBytesBE, ih]

theorem natBytesBE_bound (f n : ℕ) : ∀ b ∈ natBytesBE f n, b < 256 := by
  induction f generalizing n with
  | zero => intro b hb; cases hb
  | succ f ih =>
    intro b hb
    rcases List.mem_append.1 hb with h | h
    · exact ih _ b h
    · rcases List.mem_singleton.1 h with rfl
      exact Nat.mod_lt _ (by omega)

theorem digestBytes_length (st : Hst) : (digestBytes st).length = 32 := by
  obtain ⟨a, b, c, d, e, f, g, h⟩ := st
  simp [digestBytes, natBytesBE_length]

theorem append_bound {l1 l2 : List ℕ} (h1 : ∀ b ∈ l1, b < 256)
    (h2 : ∀ b ∈ l2, b < 256) : ∀ b ∈ l1 ++ l2, b < 256 := by
  intro b hb
  rcases List.mem_append.1 hb with h | h
  exacts [h1 b h, h2 b h]

theorem digestBytes_bound (st : Hst) : ∀ b ∈ digestBytes st, b < 256 := by
  obtain ⟨a, b, c, d, e, f, g, h⟩ := st
  unfold digestBytes
  exact append_bound (append_bound (append_bound (append_bound (append_bound
    (append_bound (append_bound (natBytesBE_bound 4 _) (natBytesBE_bound 4 _))
    (natBytesBE_bound 4 _)) (natBytesBE_bound 4 _)) (natBytesBE_bound 4 _))
    (natBytesBE_bound 4 _)) (natBytesBE_bound 4 _)) (natBytesBE_bound 4 _)

theorem fromBytesN_lt (bs : List ℕ) (acc : ℕ) (hb : ∀ b ∈ bs, b < 256) :
    bs.foldl (fun acc b => acc * 256 + b) acc < (acc + 1) * 256 ^ bs.length := by
  induction bs generalizing acc with
  | nil => simp
  | cons b bs ih =>
    have hlt := ih (acc * 256 + b) fun y hy => hb y (List.mem_cons_of_mem b hy)
    have hb' : b < 256 := hb b (List.mem_cons_self b bs)
    calc (b :: bs).foldl (fun acc b => acc * 256 + b) acc
        < (acc * 256 + b + 1) * 256 ^ bs.length := hlt
      _ ≤ (acc + 1) * 256 ^ (b :: bs).length := by
          rw [List.length_cons, pow_succ]
          have : acc * 256 + b + 1 ≤ (acc + 1) * 256 := by omega
          calc (acc * 256 + b + 1) * 256 ^ bs.length
              ≤ (acc + 1) * 256 * 256 ^ bs.length :=
                Nat.mul_le_mul_right _ this
            _ = (acc + 1) * (256 ^ bs.length * 256) := by ring

theorem sha256_val_lt (msg : List ℕ) : fromBytesN (sha256 msg) < 2 ^ 256 := by
  unfold sha256 fromBytesN
  have h := fromBytesN_lt (digestBytes ((chunks (shaPad msg).length (shaPad msg)).foldl
    compressBlock shaInit)) 0 (digestBytes_bound _)
  rw [digestBytes_length] at h
  calc _ < (0 + 1) * 256 ^ 32 := h
    _ = 2 ^ 256 := by norm_num

/-! ### The claims -/

/-- C5: Decomposition round-trip.  For every `x ∈ [0, U^L)` (with `U ≥ 1`,
`L ≥ 0`), `Decompose(x, U, L)` returns (with a nil error) an ordered sequence
of exactly `L` integers, each in `[0, U)`, least-significant digit first,
whose positional sum `Σ digitᵢ · U^i` equals `x`. -/
theorem decompose_roundtrip (x u l : ℤ) (hu : 1 ≤ u) (hl : 0 ≤ l)
    (hx0 : 0 ≤ x) (hx : x < u ^ l.toNat) :
    Decompose x u l = .ok (digitsOf x u l.toNat) ∧
    (digitsOf x u l.toNat).length = l.toNat ∧
    (∀ d ∈ digitsOf x u l.toNat, 0 ≤ d ∧ d < u) ∧
    posSum u (digitsOf x u l.toNat) = x := by
  have hu0 : 0 < u := hu
  refine ⟨?_, digitsOf_length x u l.toNat, digitsOf_bounds hu0 x l.toNat, ?_⟩
  · rw [Decompose, if_neg (by omega), if_neg (by rintro ⟨h0, h1⟩; omega)]
  · rw [posSum_digitsOf hu0, Int.emod_eq_of_lt hx0 hx]

theorem decompose_roundtrip_witness :
    (1 : ℤ) ≤ 3 ∧ (0 : ℤ) ≤ 3 ∧ (0 : ℤ) ≤ 11 ∧ (11 : ℤ) < 3 ^ (3 : ℤ).toNat ∧
    (Decompose 11 3 3 = .ok (digitsOf 11 3 (3 : ℤ).toNat) ∧
      (digitsOf 11 3 (3 : ℤ).toNat).length = (3 : ℤ).toNat ∧
      (∀ d ∈ digitsOf 11 3 (3 : ℤ).toNat, 0 ≤ d ∧ d < 3) ∧
      posSum 3 (digitsOf 11 3 (3 : ℤ).toNat) = 11) :=
  ⟨by decide, by decide, by decide, by decide,
    decompose_roundtrip 11 3 3 (by decide) (by decide) (by decide) (by decide)⟩

/-- C10: for every non-negative `x ≥ U^L` (`U ≥ 1`, `L ≥ 0`),
`Decompose(x, U, L)` returns a nil error and exactly `L` digits equal to the
base-`U` decomposition of `x mod U^L`: the high-order part of `x` is silently
discarded and no failure of any kind is signalled. -/
theorem decompose_truncates (x u l : ℤ) (hu : 1 ≤ u) (hl : 0 ≤ l)
    (hx0 : 0 ≤ x) (hxhi : u ^ l.toNat ≤ x) :
    Decompose x u l = .ok (digitsOf (x % u ^ l.toNat) u l.toNat) ∧
    Decompose x u l = Decompose (x % u ^ l.toNat) u l ∧
    (digitsOf (x % u ^ l.toNat) u l.toNat).length = l.toNat ∧
    posSum u (digitsOf (x % u ^ l.toNat) u l.toNat) = x % u ^ l.toNat := by
  have hu0 : 0 < u := hu
  have hok : ∀ y : ℤ, Decompose y u l = .ok (digitsOf y u l.toNat) := by
    intro y
    rw [Decompose, if_neg (by omega), if_neg (by rintro ⟨h0, h1⟩; omega)]
  refine ⟨?_, ?_, digitsOf_length _ u l.toNat, ?_⟩
  · rw [hok x, digitsOf_emod hu0 hx0]
  · rw [hok x, hok (x % u ^ l.toNat), digitsOf_emod hu0 hx0]
  · rw [posSum_digitsOf hu0,
      Int.emod_emod_of_dvd x (dvd_refl (u ^ l.toNat))]

theorem decompose_truncates_witness :
    (1 : ℤ) ≤ 2 ∧ (0 : ℤ) ≤ 8 ∧ (0 : ℤ) ≤ 300 ∧ (2 : ℤ) ^ (8 : ℤ).toNat ≤ 300 ∧
    (Decompose 300 2 8 = .ok (digitsOf (300 % 2 ^ (8 : ℤ).toNat) 2 (8 : ℤ).toNat) ∧
      Decompose 300 2 8 = Decompose (300 % 2 ^ (8 : ℤ).toNat) 2 8 ∧
      (digitsOf (300 % 2 ^ (8 : ℤ).toNat) 2 (8 : ℤ).toNat).length = (8 : ℤ).toNat ∧
      posSum 2 (digitsOf (300 % 2 ^ (8 : ℤ).toNat) 2 (8 : ℤ).toNat) =
        300 % 2 ^ (8 : ℤ).toNat) :=
  ⟨by decide, by decide, by decide, by decide,
    decompose_truncates 300 2 8 (by decide) (by decide) (by decide) (by decide)⟩

/-- C7: determinism of `Hash`: two calls on identical first-round pairing
values and identical aggregate element return identical challenge scalars
(the embedded `Hash` is a pure function of its two arguments: the source
reads no state other than the sha256 digest of their serializations). -/
theorem hash_deterministic (a1 a2 : List GT) (D1 D2 : G2) (h1 : a1 = a2)
    (h2 : D1 = D2) : Hash a1 D1 = Hash a2 D2 := by
  rw [h1, h2]

theorem hash_deterministic_witness :
    ([(0 : GT)] = [(0 : GT)]) ∧ ((1 : G2) = 1) ∧
      Hash [(0 : GT)] 1 = Hash [(0 : GT)] 1 :=
  ⟨rfl, rfl, hash_deterministic [0] [0] 1 1 rfl rfl⟩

/-- C1 (code bug evidence): the proof struct declares and `Prove` fills the
nonce fields `s`, `t`, `m`; on `Setup(U=2, L=2)` with `sk = 5` and
`Prove(x=3, r=2)` run with nonces `m = 9`, `s = [11,12]`, `t = [21,22]`, the
returned proof carries exactly those witness scalars in its `m`, `s`, `t`
fields, contradicting the claim that no witness data appears in the Proof. -/
theorem proof_contains_witness_data :
    ((Prove 3 2 (Setup 5 2 2).1 9 (fun i => (i : ℤ) + 7) (fun i => (i : ℤ) + 11)
      (fun i => (i : ℤ) + 21)).toOption.map fun pf => (pf.m, pf.s, pf.t)) =
      some (9, [11, 12], [21, 22]) := by
  decide

/-- C2 (code bug evidence): `Prove` performs no range check (the source even
carries `TODO: must verify if x belongs to p.signatures`): with
`Setup(U=2, L=8)` (range `[0,256)`) and the out-of-range secret `x = 300`,
`Prove` returns a proof and a nil error instead of failing with a
range-violation error — `Decompose` truncates to `300 mod 256`, so every
digit-signature lookup succeeds. -/
theorem prove_out_of_range_succeeds :
    (Prove 300 1 (Setup 3 2 8).1 4 (fun _ => 1) (fun _ => 2)
      (fun _ => 3)).toOption.isSome = true := by
  decide

/-- C9 counterexample: `Setup(0, 0)` does not abort: it returns a `params`
value (with `u = 0`, `l = 0` stored as given) together with a nil error,
refuting the claim that `Setup` aborts with a fatal error on non-positive
`U` or `L`. -/
theorem setup_nonpositive_returns :
    (Setup 3 0 0).2 = none ∧ (Setup 3 0 0).1.u = 0 ∧ (Setup 3 0 0).1.l = 0 :=
  ⟨rfl, rfl, rfl⟩

/-- C9 amended: `Setup` performs no validation and always returns a result
with a nil error, for non-positive `U` or `L` included; a subsequent `Prove`
with such `Params` aborts with a runtime panic when `L < 0` (negative slice
allocation), when `U = 0 < L` (division by zero in `Decompose`), and when
`U < 0 < L` (dereference of a missing signature entry), but returns normally
whenever `L = 0`. -/
theorem setup_no_validation :
    (∀ sk u l : ℤ, (Setup sk u l).2 = none) ∧
    (∀ (sk u l x r m : ℤ) (v s t : ℕ → ℤ), l < 0 →
      Prove x r (Setup sk u l).1 m v s t = .error .makeslice) ∧
    (∀ (sk l x r m : ℤ) (v s t : ℕ → ℤ), 0 < l →
      Prove x r (Setup sk 0 l).1 m v s t = .error .divisionByZero) ∧
    (∀ (sk u l x r m : ℤ) (v s t : ℕ → ℤ), u < 0 → 0 < l →
      Prove x r (Setup sk u l).1 m v s t = .error .nilDereference) ∧
    (∀ (sk u x r m : ℤ) (v s t : ℕ → ℤ),
      (Prove x r (Setup sk u 0).1 m v s t).toOption.isSome = true) := by
  refine ⟨fun sk u l => rfl, ?_, ?_, ?_, ?_⟩
  · intro sk u l x r m v s t hl0
    have hdec : Decompose x u l = .error .makeslice := by
      rw [Decompose, if_pos hl0]
    simp only [Prove, Setup, hdec]
  · intro sk l x r m v s t hl0
    have hdec : Decompose x 0 l = .error .divisionByZero := by
      rw [Decompose, if_neg (by omega), if_pos ⟨rfl, hl0⟩]
    simp only [Prove, Setup, hdec]
  · intro sk u l x r m v s t hu0 hl0
    have hdec : Decompose x u l = .ok (digitsOf x u l.toNat) := by
      rw [Decompose, if_neg (by omega), if_neg (by rintro ⟨h0, h1⟩; omega)]
    obtain ⟨n, hn⟩ : ∃ n, l.toNat = n + 1 := ⟨l.toNat - 1, by omega⟩
    have hnone : ∀ d : ℤ,
        (if 0 ≤ d ∧ d < u then some (sign d sk) else none) = none :=
      fun d => if_neg (by rintro ⟨h0, h1⟩; omega)
    simp only [Prove, Setup, hdec, hn, digitsOf, lookupAll, mapE, hnone]
  · intro sk u x r m v s t
    have hdec : Decompose x u 0 = .ok (digitsOf x u (0 : ℤ).toNat) := by
      rw [Decompose, if_neg (by omega), if_neg (by rintro ⟨h0, h1⟩; omega)]
    simp only [Prove, Setup, hdec]
    rfl

theorem setup_no_validation_witness :
    (Setup 1 0 0).2 = none ∧
    Prove 0 0 (Setup 1 2 (-1)).1 0 (fun _ => 0) (fun _ => 0) (fun _ => 0) =
      .error .makeslice ∧
    Prove 0 0 (Setup 1 0 3).1 0 (fun _ => 0) (fun _ => 0) (fun _ => 0) =
      .error .divisionByZero ∧
    Prove 5 0 (Setup 1 (-2) 3).1 0 (fun _ => 0) (fun _ => 0) (fun _ => 0) =
      .error .nilDereference ∧
    (Prove 5 0 (Setup 1 (-2) 0).1 0 (fun _ => 0) (fun _ => 0)
      (fun _ => 0)).toOption.isSome = true :=
  ⟨setup_no_validation.1 1 0 0,
   setup_no_validation.2.1 1 2 (-1) 0 0 0 _ _ _ (by decide),
   setup_no_validation.2.2.1 1 3 0 0 0 _ _ _ (by decide),
   setup_no_validation.2.2.2.1 1 (-2) 3 5 0 0 _ _ _ (by decide) (by decide),
   setup_no_validation.2.2.2.2 1 (-2) 5 0 0 _ _ _⟩

/-- C3: completeness.  For every `x ∈ [0, U^L)` (with `U ≥ 1`, `L ≥ 0` as
`Setup` stores them), every blinding `r`, and any sampled scalars `m`, `v`,
`s`, `t`, `Prove(x, r, Params)` succeeds, and `Verify` applied to the
resulting proof with the same `Params` and the authority's public key returns
true.  `hsig` states that each fetched digit signature is a well-formed
Boneh-Boyen signature (its exponent inverts `digit + sk`), which holds for
every honestly generated key whose `sk + digit` is nonzero mod the prime
order. -/
theorem prove_verify_completeness (sk u l x r m : ℤ) (v s t : ℕ → ℤ)
    (hu : 0 < u) (hl : 0 ≤ l) (hx0 : 0 ≤ x) (hx : x < u ^ l.toNat)
    (hsig : ∀ i < l.toNat, sign ((digitsOf x u l.toNat).getD i 0) sk *
      (((digitsOf x u l.toNat).getD i 0 + sk : ℤ) : Zp) = 1) :
    ∃ pf, Prove x r (Setup sk u l).1 m v s t = .ok pf ∧
      Verify pf (Setup sk u l).1 (Setup sk u l).1.kp.pubk = .ok true := by
  refine ⟨mkProof sk u l x r m v s t, Prove_Setup_eq sk u l x r m v s t hu hl, ?_⟩
  have hVl : (Setup sk u l).1.l.toNat ≤ (mkProof sk u l x r m v s t).V.length := by
    rw [mk_V_def]; simp only [List.length_map, List.length_range]; exact Nat.le_refl _
  have hal : (Setup sk u l).1.l.toNat ≤ (mkProof sk u l x r m v s t).a.length := by
    rw [mk_a_def]; simp only [List.length_map, List.length_range]; exact Nat.le_refl _
  have hzsl : (Setup sk u l).1.l.toNat ≤ (mkProof sk u l x r m v s t).zsig.length := by
    rw [mk_zsig_def]; simp only [List.length_map, List.length_range]; exact Nat.le_refl _
  have hzvl : (Setup sk u l).1.l.toNat ≤ (mkProof sk u l x r m v s t).zv.length := by
    rw [mk_zv_def]; simp only [List.length_map, List.length_range]; exact Nat.le_refl _
  rw [Verify_eval _ _ _ hVl hal hzsl hzvl]
  have h1 : G2.marshalEq
      (recomputedD (mkProof sk u l x r m v s t) (Setup sk u l).1)
      (mkProof sk u l x r m v s t).D = true :=
    decide_eq_true (mk_consistency sk u l x r m v s t hu hx0 hx)
  have h2 : ((List.range (Setup sk u l).1.l.toNat).all fun i =>
      GT.marshalEq (recomputedA (mkProof sk u l x r m v s t)
        (Setup sk u l).1.kp.pubk i)
        ((mkProof sk u l x r m v s t).a.getD i 0)) = true := by
    rw [List.all_eq_true]
    intro i hi
    have hi' : i < l.toNat := List.mem_range.1 hi
    exact decide_eq_true (mk_digitHolds sk u l x r m v s t hi' (hsig i hi'))
  rw [h1, h2]
  rfl

theorem prove_verify_completeness_witness :
    ∃ pf, Prove 200 5 (Setup 3 2 8).1 7 (fun i => (i : ℤ) + 2)
        (fun i => (i : ℤ) + 11) (fun i => 3 * (i : ℤ) + 1) = .ok pf ∧
      Verify pf (Setup 3 2 8).1 (Setup 3 2 8).1.kp.pubk = .ok true :=
  prove_verify_completeness 3 2 8 200 5 7 (fun i => (i : ℤ) + 2)
    (fun i => (i : ℤ) + 11) (fun i => 3 * (i : ℤ) + 1) (by decide) (by decide)
    (by decide) (by decide) (by decide)

/-- C4: `Verify` returns true iff both the consistency check (the recomputed
`D' = C^c · H^zr · Π g2^(zsigᵢ·U^i)` serializes identically to `proof.D`) and
every per-digit pairing check for `i ∈ [0, L)` hold; a single mismatch
anywhere makes `Verify` return false (the length hypotheses say the proof
carries one entry per digit, as every proof built by `Prove` does — with
fewer entries the Go code panics on a slice index instead). -/
theorem verify_iff_checks (pf : proof) (p : params) (pubk : G1)
    (hV : pf.V.length = p.l.toNat) (ha : pf.a.length = p.l.toNat)
    (hzs : pf.zsig.length = p.l.toNat) (hzv : pf.zv.length = p.l.toNat) :
    Verify pf p pubk = .ok true ↔
      (consistencyHolds pf p ∧ ∀ i < p.l.toNat, digitHolds pf pubk i) := by
  rw [Verify_eval pf p pubk (le_of_eq hV.symm) (le_of_eq ha.symm)
    (le_of_eq hzs.symm) (le_of_eq hzv.symm)]
  constructor
  · intro h
    have h' := Except.ok.inj h
    rw [Bool.and_eq_true] at h'
    obtain ⟨h1, h2⟩ := h'
    refine ⟨of_decide_eq_true h1, ?_⟩
    intro i hi
    exact of_decide_eq_true ((List.all_eq_true.mp h2) i (List.mem_range.mpr hi))
  · rintro ⟨h1, h2⟩
    have e1 : G2.marshalEq (recomputedD pf p) pf.D = true := decide_eq_true h1
    have e2 : ((List.range p.l.toNat).all fun i =>
        GT.marshalEq (recomputedA pf pubk i) (pf.a.getD i 0)) = true :=
      List.all_eq_true.mpr fun i hi =>
        decide_eq_true (h2 i (List.mem_range.mp hi))
    rw [e1, e2]
    rfl

/-- A syntactically explicit one-digit proof transcript used to witness the
`Verify` iff characterisation. -/
def pfOne : proof :=
  { V := [0], D := 0, C := 0, a := [0], s := [], t := [], zsig := [0],
    zv := [0], c := 0, m := 0, zr := 0 }

theorem verify_iff_checks_witness :
    (pfOne.V.length = ((Setup 1 1 1).1).l.toNat ∧
     pfOne.a.length = ((Setup 1 1 1).1).l.toNat ∧
     pfOne.zsig.length = ((Setup 1 1 1).1).l.toNat ∧
     pfOne.zv.length = ((Setup 1 1 1).1).l.toNat) ∧
    (Verify pfOne (Setup 1 1 1).1 1 = .ok true ↔
      (consistencyHolds pfOne (Setup 1 1 1).1 ∧
        ∀ i < ((Setup 1 1 1).1).l.toNat, digitHolds pfOne 1 i)) :=
  ⟨⟨rfl, rfl, rfl, rfl⟩, verify_iff_checks pfOne (Setup 1 1 1).1 1 rfl rfl rfl rfl⟩

/-- C8: tamper sensitivity on the commitment-opening response.  For every
proof produced by `Prove` on an in-range secret, replacing `zr` by
`(zr + 1) mod Order` while leaving every other field unchanged makes `Verify`
return false: the recomputed `D'` gains a factor `H`, and `H ≠ 1`, so the
consistency comparison fails regardless of the per-digit checks. -/
theorem verify_rejects_tampered_zr (sk u l x r m : ℤ) (v s t : ℕ → ℤ)
    (hu : 0 < u) (hl : 0 ≤ l) (hx0 : 0 ≤ x) (hx : x < u ^ l.toNat) :
    ∃ pf, Prove x r (Setup sk u l).1 m v s t = .ok pf ∧
      Verify { pf with zr := Mod (pf.zr + 1) OrderZ } (Setup sk u l).1
        (Setup sk u l).1.kp.pubk = .ok false := by
  refine ⟨mkProof sk u l x r m v s t, Prove_Setup_eq sk u l x r m v s t hu hl, ?_⟩
  set pft : proof :=
    { mkProof sk u l x r m v s t with
      zr := Mod ((mkProof sk u l x r m v s t).zr + 1) OrderZ } with hpft
  have hVl : (Setup sk u l).1.l.toNat ≤ pft.V.length := by
    rw [show pft.V = (mkProof sk u l x r m v s t).V from rfl, mk_V_def]
    simp only [List.length_map, List.length_range]; exact Nat.le_refl _
  have hal : (Setup sk u l).1.l.toNat ≤ pft.a.length := by
    rw [show pft.a = (mkProof sk u l x r m v s t).a from rfl, mk_a_def]
    simp only [List.length_map, List.length_range]; exact Nat.le_refl _
  have hzsl : (Setup sk u l).1.l.toNat ≤ pft.zsig.length := by
    rw [show pft.zsig = (mkProof sk u l x r m v s t).zsig from rfl, mk_zsig_def]
    simp only [List.length_map, List.length_range]; exact Nat.le_refl _
  have hzvl : (Setup sk u l).1.l.toNat ≤ pft.zv.length := by
    rw [show pft.zv = (mkProof sk u l x r m v s t).zv from rfl, mk_zv_def]
    simp only [List.length_map, List.length_range]; exact Nat.le_refl _
  rw [Verify_eval _ _ _ hVl hal hzsl hzvl]
  have hsum : ((posSum u (digitsOf x u l.toNat) : ℤ) : Zp) = ((x : ℤ) : Zp) := by
    rw [posSum_digitsOf hu, Int.emod_eq_of_lt hx0 hx]
  have hD' : recomputedD pft (Setup sk u l).1 =
      ((Mod ((mkProof sk u l x r m v s t).zr + 1) OrderZ + r *
        (mkProof sk u l x r m v s t).c : ℤ) : Zp) * (Setup sk u l).1.H +
      SumZ (fun i => ((s i : ℤ) : Zp) * (((Setup sk u l).1.u : ℤ) : Zp) ^ i)
        (Setup sk u l).1.l.toNat :=
    recomputedD_formula pft (Setup sk u l).1 (digitsOf x u l.toNat)
      (mkProof sk u l x r m v s t).c x r
      (Mod ((mkProof sk u l x r m v s t).zr + 1) OrderZ) s rfl rfl rfl
      (mk_zsig_def sk u l x r m v s t) (digitsOf_length x u l.toNat) hsum
  have hne : recomputedD pft (Setup sk u l).1 ≠ pft.D := by
    rw [hD', show pft.D = (mkProof sk u l x r m v s t).D from rfl, mkD_formula]
    simp only [show (Setup sk u l).1.u = u from rfl,
      show (Setup sk u l).1.l = l from rfl,
      show (Setup sk u l).1.H = ((hConst : ℤ) : Zp) from rfl]
    rw [mk_zr_def]
    push_cast
    rw [castMod]
    push_cast
    rw [castMod]
    unfold Sub Multiply
    push_cast
    intro heq
    have hcontra : ((hConst : ℤ) : Zp) = 0 := by linear_combination heq
    have hq : ((hConst : ℤ) : Zp) ≠ 0 := by decide
    exact hq hcontra
  have h1 : G2.marshalEq (recomputedD pft (Setup sk u l).1) pft.D = false :=
    decide_eq_false hne
  rw [h1, Bool.false_and]

theorem verify_rejects_tampered_zr_witness :
    ∃ pf, Prove 200 5 (Setup 3 2 8).1 7 (fun i => (i : ℤ) + 2)
        (fun i => (i : ℤ) + 11) (fun i => 3 * (i : ℤ) + 1) = .ok pf ∧
      Verify { pf with zr := Mod (pf.zr + 1) OrderZ } (Setup 3 2 8).1
        (Setup 3 2 8).1.kp.pubk = .ok false :=
  verify_rejects_tampered_zr 3 2 8 200 5 7 (fun i => (i : ℤ) + 2)
    (fun i => (i : ℤ) + 11) (fun i => 3 * (i : ℤ) + 1) (by decide) (by decide)
    (by decide) (by decide)

set_option maxRecDepth 200000 in
/-- C6 counterexample: `Hash` itself performs no reduction modulo the group
order: already on the aggregate element `g2^1` (with no first-round values)
the integer `Hash` returns is `≥ Order`, refuting "the scalar Hash returns is
strictly less than the group order". -/
theorem hash_can_exceed_order : OrderZ ≤ Hash [] ((1 : ℕ) : G2) := by
  decide

theorem Prove_ok_c (x r : ℤ) (p : params) (m : ℤ) (v s t : ℕ → ℤ) (pf : proof)
    (hE : Prove x r p m v s t = .ok pf) : ∃ z : ℤ, pf.c = Mod z OrderZ := by
  unfold Prove at hE
  cases hdec : Decompose x p.u p.l with
  | error e =>
    rw [hdec] at hE
    cases hE
  | ok decx =>
    rw [hdec] at hE
    dsimp only at hE
    cases hlook : lookupAll p.signatures decx with
    | error e =>
      rw [hlook] at hE
      cases hE
    | ok As =>
      rw [hlook] at hE
      injection hE with h
      subst h
      exact ⟨Hash (proveA s t (proveV v As p.l.toNat) p.l.toNat)
        (proveD p m s p.l.toNat), rfl⟩

set_option maxRecDepth 200000 in
/-- C6 amended: `Hash` serializes its inputs with a fixed canonical encoding,
concatenates, applies SHA-256, and returns the digest interpreted as an
unsigned integer, unreduced — bounded only by `2^256`; the reduction modulo
the group order happens in the caller (`Prove`), so the challenge scalar a
returned proof stores is always in `[0, Order)`. -/
theorem hash_bound_and_caller_reduces :
    (∀ (a : List GT) (D : G2), 0 ≤ Hash a D ∧ Hash a D < 2 ^ 256) ∧
    (∀ (x r : ℤ) (p : params) (m : ℤ) (v s t : ℕ → ℤ),
      ((Prove x r p m v s t).toOption.all fun pf =>
        decide (0 ≤ pf.c ∧ pf.c < OrderZ)) = true) := by
  constructor
  · intro a D
    constructor
    · exact Int.natCast_nonneg _
    · have h3 : Hash a D < ((2 ^ 256 : ℕ) : ℤ) := by
        have h := sha256_val_lt ((a.map serElem).flatten ++ serElem D)
        unfold Hash FromByteArray
        exact_mod_cast h
      exact lt_of_lt_of_eq h3 (by norm_num)
  · intro x r p m v s t
    cases hE : Prove x r p m v s t with
    | error e => rfl
    | ok pf =>
      obtain ⟨z, hz⟩ := Prove_ok_c x r p m v s t pf hE
      show decide (0 ≤ pf.c ∧ pf.c < OrderZ) = true
      rw [hz]
      apply decide_eq_true
      exact ⟨Int.emod_nonneg _ (by decide), Int.emod_lt_of_pos _ (by decide)⟩

end ZKRP
